import Mathlib

/-!
Verification of the `commonprops` schema-intersection algebra.

The repository computes, at the TypeScript type level, the structural
intersection of record types under two policies (strict and upcast).
We embed the type-level code of `src/src/index.ts` (and the earlier
revision in `src/unnamed/part_000`) shallowly: the fragment of TypeScript
types it manipulates (string/number/boolean literals, their primitive
bases, and opaque types) becomes the inductive `TypeDescriptor`, a record
type becomes a `Schema` (a map from field name to descriptor), and each
conditional-type definition becomes a Lean function over these values.
-/

namespace CommonProps

/-- The fragment of TypeScript types the library distinguishes:
singleton literals, their primitive bases, and opaque types (any other
type, compared only by structural identity, encoded by a signature). -/
inductive TypeDescriptor where
  | StringLiteral (v : String)
  | NumberLiteral (v : Int)
  | BooleanLiteral (v : Bool)
  | StringPrimitive
  | NumberPrimitive
  | BooleanPrimitive
  | OpaqueTy (sig : Nat)
deriving DecidableEq, Repr

open TypeDescriptor

/-- TypeScript assignability (`extends`) restricted to this fragment:
`a` extends `b` iff `a = b` (structural equality) or `a` is a literal of
kind `k` and `b` is the primitive of kind `k`.  Opaque types extend only
structurally identical opaque types. -/
def tsExtends : TypeDescriptor → TypeDescriptor → Bool
  | StringLiteral _, StringPrimitive => true
  | NumberLiteral _, NumberPrimitive => true
  | BooleanLiteral _, BooleanPrimitive => true
  | StringLiteral v, StringLiteral w => v == w
  | NumberLiteral v, NumberLiteral w => v == w
  | BooleanLiteral v, BooleanLiteral w => v == w
  | StringPrimitive, StringPrimitive => true
  | NumberPrimitive, NumberPrimitive => true
  | BooleanPrimitive, BooleanPrimitive => true
  | OpaqueTy s, OpaqueTy t => s == t
  | _, _ => false

/-- `IsUpcastable<T>` from `src/src/index.ts`:
`[T] extends [string] ? (string extends T ? false : true) :
 [T] extends [number] ? (number extends T ? false : true) :
 [T] extends [boolean] ? (true extends T ? (false extends T ? false : true) : true) :
 false`.
On this fragment the non-distributive `[T] extends [string]` coincides
with `tsExtends T StringPrimitive`, and similarly for the others. -/
def IsUpcastable (d : TypeDescriptor) : Bool :=
  if tsExtends d StringPrimitive then !(tsExtends StringPrimitive d)
  else if tsExtends d NumberPrimitive then !(tsExtends NumberPrimitive d)
  else if tsExtends d BooleanPrimitive then
    if tsExtends (BooleanLiteral true) d then
      if tsExtends (BooleanLiteral false) d then false else true
    else true
  else false

/-- `GetUpcastable<T>` from `src/src/index.ts`:
`T extends string ? string : T extends number ? number :
 T extends boolean ? boolean : never`.
`never` is represented as `none`. -/
def GetUpcastable (d : TypeDescriptor) : Option TypeDescriptor :=
  if tsExtends d StringPrimitive then some StringPrimitive
  else if tsExtends d NumberPrimitive then some NumberPrimitive
  else if tsExtends d BooleanPrimitive then some BooleanPrimitive
  else none

/-- `extends` lifted to possibly-`never` types (`none` is `never`):
`never` extends everything; nothing but `never` extends `never`. -/
def optExtends : Option TypeDescriptor → Option TypeDescriptor → Bool
  | none, _ => true
  | some _, none => false
  | some a, some b => tsExtends a b

/-- A record schema: a map from field name to type descriptor
(`none` = the field is absent). -/
def Schema : Type := String → Option TypeDescriptor

/-- The TypeScript empty object type `{}`, the default `Empty` argument
of `CommonStrictProps` / `CommonUpcastProps`. -/
def emptySchema : Schema := fun _ => none

/-- The per-field body of `CommonStrictPairs<T, U>` in `src/src/index.ts`.
Key clause: `T[K] extends U[K] ? (U[K] extends T[K] ? K : never) : never`;
value clause: `T[K] extends U[K] ? T[K] : (U[K] extends T[K] ? U[K] : never)`.
When the key is kept both `extends` tests hold, so the value clause takes
its first branch and yields `T[K]`; a dropped key is `none`. -/
def strictField (a b : TypeDescriptor) : Option TypeDescriptor :=
  if tsExtends a b then
    if tsExtends b a then some a else none
  else none

/-- `CommonStrictPairs<T, U>` of `src/src/index.ts`, per field over the
shared keys (a field missing from either operand is absent). -/
def CommonStrictPairs (A B : Schema) : Schema := fun k =>
  match A k, B k with
  | some a, some b => strictField a b
  | _, _ => none

/-- The per-field body of `CommonUpcastPairs<T, U>` in `src/src/index.ts`.
The key clause keeps `K` when `T[K] extends U[K]`, or `U[K] extends T[K]`,
or both sides are upcastable with `GetUpcastable<T[K]> extends
GetUpcastable<U[K]>`; the value clause picks, in the same case order,
`T[K]` on an exact match, the more general side on a one-sided `extends`,
and `GetUpcastable<T[K]>` in the upcast case (there a literal's base
primitive, never `none`). -/
def upcastField (a b : TypeDescriptor) : Option TypeDescriptor :=
  if tsExtends a b then
    if tsExtends b a then some a
    else some b
  else if tsExtends b a then some a
  else if IsUpcastable a && IsUpcastable b
          && optExtends (GetUpcastable a) (GetUpcastable b) then
    GetUpcastable a
  else none

/-- `CommonUpcastPairs<T, U>` of `src/src/index.ts`, per field over the
shared keys. -/
def CommonUpcastPairs (A B : Schema) : Schema := fun k =>
  match A k, B k with
  | some a, some b => upcastField a b
  | _, _ => none

/-- `CommonStrictProps<T, Empty>` of `src/src/index.ts`:
`T extends [First, Second, ...Rest] ? (Rest extends [] ?
 CommonStrictPairs<First, Second> :
 CommonStrictProps<[CommonStrictPairs<First, Second>, ...Rest]>) :
 T extends [Only] ? Only : Empty`.
The recursive call uses the default `Empty = \x7b\x7d`. -/
def CommonStrictProps : List Schema → Schema → Schema
  | [first, second], _ => CommonStrictPairs first second
  | first :: second :: r :: rs, _ =>
    CommonStrictProps (CommonStrictPairs first second :: r :: rs) emptySchema
  | [only], _ => only
  | [], empty => empty
termination_by l _ => l.length

/-- `CommonUpcastProps<T, Empty>` of `src/src/index.ts`, the same fold
over `CommonUpcastPairs`. -/
def CommonUpcastProps : List Schema → Schema → Schema
  | [first, second], _ => CommonUpcastPairs first second
  | first :: second :: r :: rs, _ =>
    CommonUpcastProps (CommonUpcastPairs first second :: r :: rs) emptySchema
  | [only], _ => only
  | [], empty => empty
termination_by l _ => l.length

/-- A field value of the older revision's mergers, which can be the
TypeScript type `never` (the old revision keeps every shared key and
writes `never` into incompatible fields). -/
inductive FieldVal where
  | ty (d : TypeDescriptor)
  | neverTy
deriving DecidableEq, Repr

/-- `GetUpcastable<...>` used in value position of the old revision:
`none` (= `never`) becomes the `never` field value. -/
def toFieldVal : Option TypeDescriptor → FieldVal
  | some d => FieldVal.ty d
  | none => FieldVal.neverTy

/-- The per-field body of `CommonStrictPairs<T, U>` in
`src/unnamed/part_000`: `[K in keyof T & keyof U]: T[K] extends U[K] ?
T[K] : U[K] extends T[K] ? U[K] : never` — no key filtering. -/
def strictFieldOld (a b : TypeDescriptor) : FieldVal :=
  if tsExtends a b then FieldVal.ty a
  else if tsExtends b a then FieldVal.ty b
  else FieldVal.neverTy

/-- `CommonStrictPairs<T, U>` of `src/unnamed/part_000`: every shared key
is present (possibly with value `never`). -/
def CommonStrictPairsOld (A B : Schema) : String → Option FieldVal := fun k =>
  match A k, B k with
  | some a, some b => some (strictFieldOld a b)
  | _, _ => none

/-- The per-field body of `CommonUpcastPairs<T, U>` in
`src/unnamed/part_000`: `T[K] extends U[K] ? T[K] : U[K] extends T[K] ?
U[K] : IsUpcastable<T[K]> extends true ? IsUpcastable<U[K]> extends true ?
GetUpcastable<T[K]> extends GetUpcastable<U[K]> ? GetUpcastable<T[K]> :
never : never : never` — no key filtering, and the more specific side is
kept on a one-sided `extends`. -/
def upcastFieldOld (a b : TypeDescriptor) : FieldVal :=
  if tsExtends a b then FieldVal.ty a
  else if tsExtends b a then FieldVal.ty b
  else if IsUpcastable a && IsUpcastable b
          && optExtends (GetUpcastable a) (GetUpcastable b) then
    toFieldVal (GetUpcastable a)
  else FieldVal.neverTy

/-- `CommonUpcastPairs<T, U>` of `src/unnamed/part_000`: every shared key
is present (possibly with value `never`). -/
def CommonUpcastPairsOld (A B : Schema) : String → Option FieldVal := fun k =>
  match A k, B k with
  | some a, some b => some (upcastFieldOld a b)
  | _, _ => none

/-- The join the upcast merger computes, in normal form: equal descriptors
join to themselves; distinct descriptors join to their shared base
primitive when they have one, and otherwise do not join. -/
def ujoin (a b : TypeDescriptor) : Option TypeDescriptor :=
  if a = b then some a
  else
    match GetUpcastable a, GetUpcastable b with
    | some p, some q => if p = q then some p else none
    | _, _ => none

/-! ### Lifting the per-field mergers to optional fields -/

/-- The strict merger applied to two optional fields (a missing field on
either side drops the field). -/
def sopt : Option TypeDescriptor → Option TypeDescriptor → Option TypeDescriptor
  | some a, some b => strictField a b
  | _, _ => none

/-- The upcast merger applied to two optional fields. -/
def uopt : Option TypeDescriptor → Option TypeDescriptor → Option TypeDescriptor
  | some a, some b => upcastField a b
  | _, _ => none

/-- The upcast merger in normal form on optional fields. -/
def jopt : Option TypeDescriptor → Option TypeDescriptor → Option TypeDescriptor
  | some a, some b => ujoin a b
  | _, _ => none

/-! ### Concrete schemas used in scenarios and witnesses -/

/-- The schema `{priority: NumberLiteral(n)}`. -/
def prioritySchema (n : Int) : Schema :=
  fun k => if k = "priority" then some (NumberLiteral n) else none

/-- The schema `{priority: NumberPrimitive}`. -/
def priorityNumberSchema : Schema :=
  fun k => if k = "priority" then some NumberPrimitive else none

/-- The schema `{name: StringPrimitive}`. -/
def nameSchema : Schema :=
  fun k => if k = "name" then some StringPrimitive else none

/-- The schema `{p: StringLiteral("x")}`. -/
def litSchema : Schema :=
  fun k => if k = "p" then some (StringLiteral "x") else none

/-- The schema `{p: StringPrimitive}`. -/
def strSchema : Schema :=
  fun k => if k = "p" then some StringPrimitive else none

/-- The schema `{active: BooleanLiteral(true)}`. -/
def activeTrue : Schema :=
  fun k => if k = "active" then some (BooleanLiteral true) else none

/-- The schema `{active: BooleanLiteral(false)}`. -/
def activeFalse : Schema :=
  fun k => if k = "active" then some (BooleanLiteral false) else none

/-! ### Basic lemmas about the subtype oracle and the classifiers -/

theorem tsExtends_refl (a : TypeDescriptor) : tsExtends a a = true := by
  cases a <;> simp [tsExtends]

theorem tsExtends_antisymm {a b : TypeDescriptor}
    (h1 : tsExtends a b = true) (h2 : tsExtends b a = true) : a = b := by
  cases a <;> cases b <;> simp_all [tsExtends]

theorem optExtends_refl (x : Option TypeDescriptor) : optExtends x x = true := by
  cases x with
  | none => rfl
  | some a => simp [optExtends, tsExtends_refl]

/-- The guard of the upcast branch holds exactly when both sides are
upcastable and share their base primitive. -/
theorem upcastGuard_iff (a b : TypeDescriptor) :
    (IsUpcastable a && IsUpcastable b
      && optExtends (GetUpcastable a) (GetUpcastable b)) = true
      ↔ IsUpcastable a = true ∧ IsUpcastable b = true
        ∧ GetUpcastable a = GetUpcastable b := by
  cases a <;> cases b <;>
    simp [IsUpcastable, GetUpcastable, optExtends, tsExtends]

/-- `strictField` is definedness-free equality: the field survives iff the
two descriptors are structurally equal. -/
theorem strictField_eq (a b : TypeDescriptor) :
    strictField a b = if a = b then some a else none := by
  by_cases h : a = b
  · subst h
    simp [strictField, tsExtends_refl]
  · simp only [strictField, if_neg h]
    split_ifs with h1 h2
    · exact absurd (tsExtends_antisymm h1 h2) h
    · rfl
    · rfl

theorem upcastField_eq_ujoin (a b : TypeDescriptor) :
    upcastField a b = ujoin a b := by
  cases a <;> cases b <;>
    simp [upcastField, ujoin, tsExtends, IsUpcastable, GetUpcastable,
      optExtends] <;>
    split_ifs <;> simp_all

theorem ujoin_self (a : TypeDescriptor) : ujoin a a = some a := by
  simp [ujoin]

/-- A base primitive is its own base primitive. -/
theorem getUp_of_getUp {a p : TypeDescriptor} (h : GetUpcastable a = some p) :
    GetUpcastable p = some p := by
  cases a <;> simp [GetUpcastable, tsExtends] at h <;> subst h <;> rfl

theorem ujoin_getUp {a p : TypeDescriptor} (h : GetUpcastable a = some p) :
    ujoin a p = some p := by
  by_cases hap : a = p
  · subst hap
    exact ujoin_self a
  · simp [ujoin, hap, h, getUp_of_getUp h]

theorem ujoin_getUp' {a p : TypeDescriptor} (h : GetUpcastable a = some p) :
    ujoin p a = some p := by
  by_cases hap : p = a
  · subst hap
    exact ujoin_self p
  · simp [ujoin, hap, h, getUp_of_getUp h]

theorem ujoin_some_of_ne {a b p : TypeDescriptor} (hne : a ≠ b)
    (h : ujoin a b = some p) :
    GetUpcastable a = some p ∧ GetUpcastable b = some p := by
  rw [ujoin, if_neg hne] at h
  cases ha : GetUpcastable a with
  | none =>
    rw [ha] at h
    cases hb : GetUpcastable b <;> rw [hb] at h <;> exact Option.noConfusion h
  | some q =>
    cases hb : GetUpcastable b with
    | none =>
      rw [ha, hb] at h
      exact Option.noConfusion h
    | some r =>
      rw [ha, hb] at h
      by_cases hqr : q = r
      · subst hqr
        simp at h
        subst h
        exact ⟨rfl, rfl⟩
      · simp [hqr] at h

theorem ujoin_of_both {a b p : TypeDescriptor} (hne : a ≠ b)
    (h1 : GetUpcastable a = some p) (h2 : GetUpcastable b = some p) :
    ujoin a b = some p := by
  simp [ujoin, hne, h1, h2]

theorem ujoin_comm (a b : TypeDescriptor) : ujoin a b = ujoin b a := by
  by_cases hab : a = b
  · subst hab
    rfl
  · rw [ujoin, ujoin, if_neg hab, if_neg (Ne.symm hab)]
    cases ha : GetUpcastable a with
    | none => cases hb : GetUpcastable b <;> rfl
    | some p =>
      cases hb : GetUpcastable b with
      | none => rfl
      | some q =>
        by_cases hpq : p = q
        · subst hpq
          rfl
        · simp [hpq, Ne.symm hpq]

theorem CommonStrictPairs_apply (A B : Schema) (k : String) :
    CommonStrictPairs A B k = sopt (A k) (B k) := rfl

theorem CommonUpcastPairs_apply (A B : Schema) (k : String) :
    CommonUpcastPairs A B k = uopt (A k) (B k) := rfl

theorem uopt_eq_jopt (x y : Option TypeDescriptor) : uopt x y = jopt x y := by
  cases x <;> cases y <;> simp [uopt, jopt, upcastField_eq_ujoin]

theorem sopt_assoc (x y z : Option TypeDescriptor) :
    sopt (sopt x y) z = sopt x (sopt y z) := by
  cases x with
  | none => cases y <;> cases z <;> rfl
  | some a =>
    cases y with
    | none => cases z <;> rfl
    | some b =>
      cases z with
      | none => cases h : strictField a b <;> simp [sopt]
      | some c =>
        by_cases hab : a = b <;> by_cases hbc : b = c <;>
          simp_all [sopt, strictField_eq]

theorem jopt_assoc (x y z : Option TypeDescriptor) :
    jopt (jopt x y) z = jopt x (jopt y z) := by
  cases x with
  | none => cases y <;> cases z <;> rfl
  | some a =>
    cases y with
    | none => cases z <;> rfl
    | some b =>
      cases z with
      | none => cases h : ujoin a b <;> simp [jopt]
      | some c =>
        show jopt (ujoin a b) (some c) = jopt (some a) (ujoin b c)
        by_cases hab : a = b
        · subst hab
          rw [ujoin_self]
          by_cases hac : a = c
          · subst hac
            simp [jopt, ujoin_self]
          · cases h : ujoin a c with
            | none =>
              simp only [jopt]
              exact h
            | some p =>
              obtain ⟨h1, _⟩ := ujoin_some_of_ne hac h
              simp only [jopt]
              rw [h, ujoin_getUp h1]
        · cases hj : ujoin a b with
          | none =>
            simp only [jopt]
            by_cases hbc : b = c
            · subst hbc
              rw [ujoin_self]
              simp only [jopt]
              exact hj.symm
            · cases hk : ujoin b c with
              | none => rfl
              | some q =>
                simp only [jopt]
                obtain ⟨hb1, hc1⟩ := ujoin_some_of_ne hbc hk
                by_cases haq : a = q
                · exfalso
                  have hga : GetUpcastable a = some q := by
                    rw [haq]
                    exact getUp_of_getUp hb1
                  have habq := ujoin_of_both hab hga hb1
                  rw [hj] at habq
                  exact Option.noConfusion habq
                · cases hga : GetUpcastable a with
                  | none => simp [ujoin, haq, hga]
                  | some r =>
                    by_cases hrq : r = q
                    · exfalso
                      have hga2 : GetUpcastable a = some q := by
                        rw [hga, hrq]
                      have habq := ujoin_of_both hab hga2 hb1
                      rw [hj] at habq
                      exact Option.noConfusion habq
                    · simp [ujoin, haq, hga, getUp_of_getUp hb1, hrq]
          | some p =>
            obtain ⟨ha1, hb1⟩ := ujoin_some_of_ne hab hj
            simp only [jopt]
            by_cases hbc : b = c
            · subst hbc
              rw [ujoin_self]
              simp only [jopt]
              rw [ujoin_getUp' hb1]
              exact hj.symm
            · cases hk : ujoin b c with
              | none =>
                show ujoin p c = none
                by_cases hpc : p = c
                · exfalso
                  have hgc : GetUpcastable c = some p := by
                    rw [← hpc]
                    exact getUp_of_getUp hb1
                  have hbcp := ujoin_of_both hbc hb1 hgc
                  rw [hk] at hbcp
                  exact Option.noConfusion hbcp
                · cases hgc : GetUpcastable c with
                  | none => simp [ujoin, hpc, getUp_of_getUp ha1, hgc]
                  | some s =>
                    by_cases hsp : s = p
                    · exfalso
                      have hgc2 : GetUpcastable c = some p := by
                        rw [hgc, hsp]
                      have hbcp := ujoin_of_both hbc hb1 hgc2
                      rw [hk] at hbcp
                      exact Option.noConfusion hbcp
                    · have hps : p ≠ s := fun h => hsp h.symm
                      simp [ujoin, hpc, getUp_of_getUp ha1, hgc, hps]
              | some q =>
                simp only [jopt]
                obtain ⟨hb2, hc2⟩ := ujoin_some_of_ne hbc hk
                have hpq : p = q := by
                  rw [hb1] at hb2
                  exact Option.some.inj hb2
                subst hpq
                rw [ujoin_getUp ha1, ujoin_getUp' hc2]

theorem uopt_assoc (x y z : Option TypeDescriptor) :
    uopt (uopt x y) z = uopt x (uopt y z) := by
  simp only [uopt_eq_jopt]
  exact jopt_assoc x y z

theorem sopt_some (a b : TypeDescriptor) :
    sopt (some a) (some b) = strictField a b := rfl

theorem sopt_comm (x y : Option TypeDescriptor) : sopt x y = sopt y x := by
  cases x with
  | none => cases y <;> rfl
  | some a =>
    cases y with
    | none => rfl
    | some b =>
      rw [sopt_some, sopt_some, strictField_eq, strictField_eq]
      by_cases hab : a = b
      · subst hab
        rfl
      · rw [if_neg hab, if_neg (Ne.symm hab)]

theorem uopt_comm (x y : Option TypeDescriptor) : uopt x y = uopt y x := by
  rw [uopt_eq_jopt, uopt_eq_jopt]
  cases x with
  | none => cases y <;> rfl
  | some a =>
    cases y with
    | none => rfl
    | some b => exact ujoin_comm a b

/-! ### The fold reducers as left folds -/

theorem CommonStrictProps_cons2 (rest : List Schema) (S1 S2 e : Schema) :
    CommonStrictProps (S1 :: S2 :: rest) e
      = List.foldl CommonStrictPairs (CommonStrictPairs S1 S2) rest := by
  induction rest generalizing S1 S2 e with
  | nil => simp [CommonStrictProps]
  | cons r rs ih =>
    rw [show CommonStrictProps (S1 :: S2 :: r :: rs) e
          = CommonStrictProps (CommonStrictPairs S1 S2 :: r :: rs) emptySchema
        from by simp [CommonStrictProps]]
    rw [ih]
    simp [List.foldl]

theorem CommonUpcastProps_cons2 (rest : List Schema) (S1 S2 e : Schema) :
    CommonUpcastProps (S1 :: S2 :: rest) e
      = List.foldl CommonUpcastPairs (CommonUpcastPairs S1 S2) rest := by
  induction rest generalizing S1 S2 e with
  | nil => simp [CommonUpcastProps]
  | cons r rs ih =>
    rw [show CommonUpcastProps (S1 :: S2 :: r :: rs) e
          = CommonUpcastProps (CommonUpcastPairs S1 S2 :: r :: rs) emptySchema
        from by simp [CommonUpcastProps]]
    rw [ih]
    simp [List.foldl]

/-! ### Claim theorems -/

/-- C1: for every pair of schemas and every field present in both, the
upcast merger keeps the field with the common descriptor on an exact
match (mutual assignability), with the more general side when exactly one
descriptor is assignable to the other, with the shared base primitive
(`GetUpcastable`) when both descriptors are upcastable literals of the
same base kind, and otherwise drops the field. -/
theorem upcast_merge_field_cases (A B : Schema) (k : String)
    (a b : TypeDescriptor) (hA : A k = some a) (hB : B k = some b) :
    (tsExtends a b = true → tsExtends b a = true →
      CommonUpcastPairs A B k = some a)
    ∧ (tsExtends a b = true → tsExtends b a = false →
      CommonUpcastPairs A B k = some b)
    ∧ (tsExtends b a = true → tsExtends a b = false →
      CommonUpcastPairs A B k = some a)
    ∧ (tsExtends a b = false → tsExtends b a = false →
      IsUpcastable a = true → IsUpcastable b = true →
      GetUpcastable a = GetUpcastable b →
      CommonUpcastPairs A B k = GetUpcastable a)
    ∧ (tsExtends a b = false → tsExtends b a = false →
      ¬(IsUpcastable a = true ∧ IsUpcastable b = true
        ∧ GetUpcastable a = GetUpcastable b) →
      CommonUpcastPairs A B k = none) := by
  have happ : CommonUpcastPairs A B k = upcastField a b := by
    rw [CommonUpcastPairs_apply, hA, hB]
    rfl
  refine ⟨?_, ?_, ?_, ?_, ?_⟩
  · intro h1 h2
    simp [happ, upcastField, h1, h2]
  · intro h1 h2
    simp [happ, upcastField, h1, h2]
  · intro h1 h2
    simp [happ, upcastField, h1, h2]
  · intro h1 h2 h3 h4 h5
    simp [happ, upcastField, h1, h2, h3, h4, h5, optExtends_refl]
  · intro h1 h2 h3
    cases hgb : (IsUpcastable a && IsUpcastable b
        && optExtends (GetUpcastable a) (GetUpcastable b)) with
    | true => exact absurd ((upcastGuard_iff a b).mp hgb) h3
    | false => simp [happ, upcastField, h1, h2, hgb]

/-- Witness for C1: merging `{active: BooleanLiteral(true)}` with
`{active: BooleanLiteral(false)}` takes the two-literal upcast case and
yields the boolean primitive. -/
theorem upcast_merge_field_cases_witness :
    CommonUpcastPairs activeTrue activeFalse "active"
      = GetUpcastable (BooleanLiteral true)
    ∧ GetUpcastable (BooleanLiteral true) = some BooleanPrimitive :=
  ⟨(upcast_merge_field_cases activeTrue activeFalse "active"
      (BooleanLiteral true) (BooleanLiteral false)
      (by decide) (by decide)).2.2.2.1 rfl rfl rfl rfl rfl, rfl⟩

/-- C2: the strict merger contains a field with value `d` iff the field
is present in both inputs with descriptors assignable in both directions
(an exact match) and `d` is that common descriptor; every other shared
field is entirely absent — there is no failure placeholder. -/
theorem strict_merge_field_iff (A B : Schema) (k : String)
    (d : TypeDescriptor) :
    CommonStrictPairs A B k = some d
      ↔ ∃ a b, A k = some a ∧ B k = some b
          ∧ tsExtends a b = true ∧ tsExtends b a = true
          ∧ d = a ∧ d = b := by
  rw [CommonStrictPairs_apply]
  cases hA : A k with
  | none => simp [sopt]
  | some a =>
    cases hB : B k with
    | none => simp [sopt]
    | some b =>
      rw [sopt_some, strictField_eq]
      constructor
      · intro h
        by_cases hab : a = b
        · subst hab
          rw [if_pos rfl] at h
          have hd : a = d := Option.some.inj h
          subst hd
          exact ⟨a, a, rfl, rfl, tsExtends_refl a, tsExtends_refl a, rfl, rfl⟩
        · rw [if_neg hab] at h
          exact Option.noConfusion h
      · rintro ⟨x, y, hx, hy, h1, h2, hd1, hd2⟩
        obtain rfl : a = x := Option.some.inj hx
        obtain rfl : b = y := Option.some.inj hy
        have hab : a = b := tsExtends_antisymm h1 h2
        subst hab
        rw [if_pos rfl, hd1]

/-- Witness for C2: `{name: StringPrimitive}` merged strictly with itself
keeps `name` with `StringPrimitive`. -/
theorem strict_merge_field_iff_witness :
    CommonStrictPairs nameSchema nameSchema "name" = some StringPrimitive :=
  (strict_merge_field_iff nameSchema nameSchema "name" StringPrimitive).mpr
    ⟨StringPrimitive, StringPrimitive, by decide, by decide, rfl, rfl, rfl, rfl⟩

/-- C3: the fold of no schemas returns the supplied default; the fold of
one schema returns it unchanged; and the fold of two or more schemas is
the left fold of the active policy's pair merger, each intermediate
result being re-merged with the next input like any other schema. -/
theorem fold_reducer_spec :
    (∀ e : Schema, CommonStrictProps [] e = e ∧ CommonUpcastProps [] e = e)
    ∧ (∀ S e : Schema, CommonStrictProps [S] e = S ∧ CommonUpcastProps [S] e = S)
    ∧ (∀ (S1 S2 : Schema) (rest : List Schema) (e : Schema),
        CommonStrictProps (S1 :: S2 :: rest) e
          = List.foldl CommonStrictPairs (CommonStrictPairs S1 S2) rest
        ∧ CommonUpcastProps (S1 :: S2 :: rest) e
          = List.foldl CommonUpcastPairs (CommonUpcastPairs S1 S2) rest) := by
  refine ⟨fun e => ⟨?_, ?_⟩, fun S e => ⟨?_, ?_⟩, fun S1 S2 rest e => ⟨?_, ?_⟩⟩
  · simp [CommonStrictProps]
  · simp [CommonUpcastProps]
  · simp [CommonStrictProps]
  · simp [CommonUpcastProps]
  · exact CommonStrictProps_cons2 rest S1 S2 e
  · exact CommonUpcastProps_cons2 rest S1 S2 e

/-- C4: folding `{priority: NumberLiteral(1)}`, `{priority:
NumberLiteral(2)}`, `{priority: NumberLiteral(3)}` under the upcast
policy yields `{priority: NumberPrimitive}`: the first pairwise merge
upcasts the two literals to the number primitive, and re-merging that
primitive with `NumberLiteral(3)` keeps the primitive. -/
theorem three_way_number_literals :
    CommonUpcastProps
        [prioritySchema 1, prioritySchema 2, prioritySchema 3] emptySchema
      = priorityNumberSchema
    ∧ CommonUpcastPairs (prioritySchema 1) (prioritySchema 2)
      = priorityNumberSchema
    ∧ CommonUpcastPairs priorityNumberSchema (prioritySchema 3)
      = priorityNumberSchema := by
  have h12 : CommonUpcastPairs (prioritySchema 1) (prioritySchema 2)
      = priorityNumberSchema := by
    funext k
    by_cases hk : k = "priority" <;>
      simp [CommonUpcastPairs, prioritySchema, priorityNumberSchema, hk,
        upcastField, tsExtends, IsUpcastable, GetUpcastable, optExtends]
  have hn3 : CommonUpcastPairs priorityNumberSchema (prioritySchema 3)
      = priorityNumberSchema := by
    funext k
    by_cases hk : k = "priority" <;>
      simp [CommonUpcastPairs, prioritySchema, priorityNumberSchema, hk,
        upcastField, tsExtends, IsUpcastable, GetUpcastable, optExtends]
  refine ⟨?_, h12, hn3⟩
  rw [show CommonUpcastProps
        [prioritySchema 1, prioritySchema 2, prioritySchema 3] emptySchema
      = CommonUpcastPairs
          (CommonUpcastPairs (prioritySchema 1) (prioritySchema 2))
          (prioritySchema 3)
    from by simp [CommonUpcastProps]]
  rw [h12, hn3]

/-- C5: both pair mergers are associative. -/
theorem merge_pairs_assoc (A B C : Schema) :
    CommonStrictPairs (CommonStrictPairs A B) C
      = CommonStrictPairs A (CommonStrictPairs B C)
    ∧ CommonUpcastPairs (CommonUpcastPairs A B) C
      = CommonUpcastPairs A (CommonUpcastPairs B C) := by
  constructor <;> funext k
  · simp only [CommonStrictPairs_apply]
    exact sopt_assoc (A k) (B k) (C k)
  · simp only [CommonUpcastPairs_apply]
    exact uopt_assoc (A k) (B k) (C k)

/-- C6: both pair mergers are commutative. -/
theorem merge_pairs_comm (A B : Schema) :
    CommonStrictPairs A B = CommonStrictPairs B A
    ∧ CommonUpcastPairs A B = CommonUpcastPairs B A := by
  constructor <;> funext k
  · simp only [CommonStrictPairs_apply]
    exact sopt_comm (A k) (B k)
  · simp only [CommonUpcastPairs_apply]
    exact uopt_comm (A k) (B k)

/-- C7: every field kept by the strict merger is kept by the upcast
merger with the same descriptor. -/
theorem upcast_subsumes_strict (A B : Schema) (k : String)
    (d : TypeDescriptor) (h : CommonStrictPairs A B k = some d) :
    CommonUpcastPairs A B k = some d := by
  rw [CommonStrictPairs_apply] at h
  rw [CommonUpcastPairs_apply, uopt_eq_jopt]
  cases hA : A k with
  | none =>
    rw [hA] at h
    exact Option.noConfusion h
  | some a =>
    rw [hA] at h
    cases hB : B k with
    | none =>
      rw [hB] at h
      exact Option.noConfusion h
    | some b =>
      rw [hB, sopt_some, strictField_eq] at h
      by_cases hab : a = b
      · subst hab
        rw [if_pos rfl] at h
        simp only [jopt]
        rw [ujoin_self]
        exact h
      · rw [if_neg hab] at h
        exact Option.noConfusion h

/-- Witness for C7: `{active: BooleanLiteral(true)}` strictly merged with
itself keeps `active`, so the upcast merger keeps it too. -/
theorem upcast_subsumes_strict_witness :
    CommonUpcastPairs activeTrue activeTrue "active"
      = some (BooleanLiteral true) :=
  upcast_subsumes_strict activeTrue activeTrue "active"
    (BooleanLiteral true) (by decide)

/-- C8: a field absent from either input is absent from the result of
both mergers — the result key set is contained in the intersection of the
input key sets. -/
theorem merge_keys_subset (A B : Schema) (k : String)
    (h : A k = none ∨ B k = none) :
    CommonStrictPairs A B k = none ∧ CommonUpcastPairs A B k = none := by
  rw [CommonStrictPairs_apply, CommonUpcastPairs_apply]
  rcases h with h | h
  · rw [h]
    exact ⟨rfl, rfl⟩
  · rw [h]
    cases A k <;> exact ⟨rfl, rfl⟩

/-- Witness for C8: `name` is absent from the empty schema, so it is
absent from its merge with `{name: StringPrimitive}`. -/
theorem merge_keys_subset_witness :
    CommonStrictPairs emptySchema nameSchema "name" = none
    ∧ CommonUpcastPairs emptySchema nameSchema "name" = none :=
  merge_keys_subset emptySchema nameSchema "name" (Or.inl rfl)

/-- C9: `IsUpcastable` is true exactly on string, number and boolean
literals; it is false on the three primitives and on every opaque
descriptor, and in particular the full boolean domain (the boolean
primitive) is not upcastable while each boolean literal is. -/
theorem isUpcastable_spec :
    (∀ d : TypeDescriptor,
      IsUpcastable d = true
        ↔ (∃ v, d = StringLiteral v) ∨ (∃ v, d = NumberLiteral v)
          ∨ (∃ v, d = BooleanLiteral v))
    ∧ IsUpcastable StringPrimitive = false
    ∧ IsUpcastable NumberPrimitive = false
    ∧ IsUpcastable BooleanPrimitive = false
    ∧ (∀ s, IsUpcastable (OpaqueTy s) = false)
    ∧ IsUpcastable (BooleanLiteral true) = true
    ∧ IsUpcastable (BooleanLiteral false) = true := by
  refine ⟨fun d => ?_, rfl, rfl, rfl, fun s => rfl, rfl, rfl⟩
  cases d <;> simp [IsUpcastable, tsExtends]

/-- Counterexample for C10: on `{p: StringLiteral("x")}` and
`{p: StringPrimitive}` the two revisions disagree — the `src/src/index.ts`
strict merger drops `p` while the `src/unnamed/part_000` one keeps it
with the literal, and the new upcast merger keeps the primitive while the
old one keeps the literal. -/
theorem revisions_not_equal_cex :
    ¬ (Option.map FieldVal.ty (CommonStrictPairs litSchema strSchema "p")
        = CommonStrictPairsOld litSchema strSchema "p"
      ∧ Option.map FieldVal.ty (CommonUpcastPairs litSchema strSchema "p")
        = CommonUpcastPairsOld litSchema strSchema "p") := by
  decide

/-- C10 (amended): the two revisions of the pair mergers agree on every
shared field whose two descriptors are structurally equal — each keeps
the field with that common descriptor — though they are not extensionally
equal on fields whose descriptors differ. -/
theorem revisions_agree_on_equal (A B : Schema) (k : String)
    (d : TypeDescriptor) (hA : A k = some d) (hB : B k = some d) :
    CommonStrictPairs A B k = some d
    ∧ CommonStrictPairsOld A B k = some (FieldVal.ty d)
    ∧ CommonUpcastPairs A B k = some d
    ∧ CommonUpcastPairsOld A B k = some (FieldVal.ty d) := by
  refine ⟨?_, ?_, ?_, ?_⟩
  · rw [CommonStrictPairs_apply, hA, hB, sopt_some, strictField_eq,
      if_pos rfl]
  · simp [CommonStrictPairsOld, hA, hB, strictFieldOld, tsExtends_refl]
  · simp [CommonUpcastPairs, hA, hB, upcastField, tsExtends_refl]
  · simp [CommonUpcastPairsOld, hA, hB, upcastFieldOld, tsExtends_refl]

/-- Witness for C10 (amended): both revisions keep `p` as
`StringLiteral("x")` when both inputs are `{p: StringLiteral("x")}`. -/
theorem revisions_agree_on_equal_witness :
    CommonStrictPairs litSchema litSchema "p"
      = some (StringLiteral "x")
    ∧ CommonStrictPairsOld litSchema litSchema "p"
      = some (FieldVal.ty (StringLiteral "x"))
    ∧ CommonUpcastPairs litSchema litSchema "p"
      = some (StringLiteral "x")
    ∧ CommonUpcastPairsOld litSchema litSchema "p"
      = some (FieldVal.ty (StringLiteral "x")) :=
  revisions_agree_on_equal litSchema litSchema "p" (StringLiteral "x")
    (by decide) (by decide)

end CommonProps
